import Mathlib

/-!
A verification development for `haystack/core/type_utils.py`: a runtime
type-compatibility checker that decides whether a value of a sender type may be
accepted where a receiver type is expected.

The type descriptor model is a shallow embedding of the Python `typing`
descriptors consumed by the checker: atomic classes, `Any`, `Union[...]`,
`Literal[...]` (whose arguments are constant values), and parameterized
generics.  The nominal subclass relation (`issubclass` on two classes) is the
pluggable subtype oracle and is a parameter `sub` of every algorithm.
-/

/-- A constant value that can appear among the arguments of a `Literal` type
(Python permits e.g. strings and numbers there). -/
inductive LitVal where
  | vstr (s : String)
  | vint (n : Int)
deriving DecidableEq

/-- A type descriptor, as observed by `type_utils.py` through `get_origin` /
`get_args` / `==` / `issubclass`:
* `any` — `typing.Any`;
* `atomic name` — a plain class (no origin, no arguments), identified nominally;
* `val v` — a constant value; these occur as the `get_args` of a `Literal`
  descriptor, and the recursive comparison and rendering code is applied to
  them directly, exactly as in the untyped Python source;
* `union alts` — `Union[...]` with its ordered, non-deduplicated alternatives;
* `lit vals` — `Literal[...]`;
* `param origin args` — a parameterized generic such as `list[int]` or the
  bare alias `typing.List` (origin `list`, empty argument list). -/
inductive Ty where
  | any
  | atomic (name : String)
  | val (v : LitVal)
  | union (alts : List Ty)
  | lit (vals : List Ty)
  | param (origin : String) (args : List Ty)

mutual
/-- Structural equality of descriptors, modelling Python `==` on them.
The alternative lists of `Union` and the value lists of `Literal` are
compared positionally here, whereas Python's typing equality ignores their
argument order (and deduplicates at construction); positional equality
under-approximates Python `==`, and the theorems below either do not
depend on the difference or are stated in a direction that holds under
both readings (see `claim_C2_strict_positional_arity`). -/
def Ty.beq : Ty → Ty → Bool
  | .any, .any => true
  | .atomic n, .atomic m => n == m
  | .val v, .val w => v == w
  | .union a, .union b => Ty.beqList a b
  | .lit a, .lit b => Ty.beqList a b
  | .param o a, .param p b => o == p && Ty.beqList a b
  | _, _ => false

def Ty.beqList : List Ty → List Ty → Bool
  | [], [] => true
  | a :: as, b :: bs => Ty.beq a b && Ty.beqList as bs
  | _, _ => false
end

instance : BEq Ty := ⟨Ty.beq⟩

theorem Ty.beq_def (a b : Ty) : (a == b) = Ty.beq a b := rfl

theorem Ty.sizeOf_pos (t : Ty) : 0 < sizeOf t := by
  cases t <;> simp_arith

mutual
theorem Ty.beq_iff : ∀ (a b : Ty), Ty.beq a b = true ↔ a = b
  | .any, b => by cases b <;> simp [Ty.beq]
  | .atomic n, b => by cases b <;> simp [Ty.beq]
  | .val v, b => by cases b <;> simp [Ty.beq]
  | .union a, b => by
      cases b <;> simp [Ty.beq]
      exact Ty.beqList_iff a _
  | .lit a, b => by
      cases b <;> simp [Ty.beq]
      exact Ty.beqList_iff a _
  | .param o a, b => by
      cases b <;> simp [Ty.beq]
      intro _
      exact Ty.beqList_iff a _

theorem Ty.beqList_iff : ∀ (a b : List Ty), Ty.beqList a b = true ↔ a = b
  | [], b => by cases b <;> simp [Ty.beqList]
  | a :: as, b => by
      cases b with
      | nil => simp [Ty.beqList]
      | cons b bs =>
        simp [Ty.beqList, Ty.beq_iff a b, Ty.beqList_iff as bs]
end

instance : LawfulBEq Ty where
  eq_of_beq h := (Ty.beq_iff _ _).1 h
  rfl := (Ty.beq_iff _ _).2 rfl

instance : DecidableEq Ty := fun a b => decidable_of_iff _ (Ty.beq_iff a b)

/-- What Python's `typing.get_origin` returns on a descriptor: `None` for
plain classes, values and `Any`; the `Union` marker; the `Literal` marker;
or the runtime origin class of a parameterized generic. -/
inductive Origin where
  | union
  | literal
  | cls (name : String)
deriving DecidableEq

/-- Embeds `typing.get_origin`. -/
def get_origin : Ty → Option Origin
  | .union _ => some .union
  | .lit _ => some .literal
  | .param o _ => some (.cls o)
  | _ => none

/-- Embeds `typing.get_args`: the alternatives of a `Union`, the constant values of a
`Literal`, the argument list of a parameterized generic, `()` otherwise. -/
def get_args : Ty → List Ty
  | .union alts => alts
  | .lit vs => vs
  | .param _ args => args
  | _ => []

theorem sizeOf_lt_of_mem_get_args {t a : Ty} (h : a ∈ get_args t) : sizeOf a < sizeOf t := by
  cases t <;> simp [get_args] at h <;>
    · have := List.sizeOf_lt_of_mem h
      simp only [Ty.union.sizeOf_spec, Ty.lit.sizeOf_spec, Ty.param.sizeOf_spec]
      omega

/-- Python's `issubclass(sender, receiver)`: defined (as the pluggable nominal
oracle `sub`, plus reflexivity) when both arguments are plain classes, and
raising `TypeError` otherwise — typing constructs such as `Union[...]`,
`Literal[...]`, parameterized generics, and constant values are not classes. -/
def pyIssubclass (sub : String → String → Bool) : Ty → Ty → Except String Bool
  | .atomic a, .atomic b => .ok (a == b || sub a b)
  | _, _ => .error "TypeError"

/-- The `try: issubclass(...) except TypeError: pass` pattern of the source:
a raised `TypeError` is treated as "not a subtype". -/
def safeIssubclass (sub : String → String → Bool) (s r : Ty) : Bool :=
  match pyIssubclass sub s r with
  | .ok b => b
  | .error _ => false

/-- Embeds `_strict_types_are_compatible` (type_utils.py lines 37-78), transcribed
branch by branch.  (`List.attach` only supplies the membership facts needed
for termination.) -/
def strict_types_are_compatible (sub : String → String → Bool)
    (sender receiver : Ty) : Bool :=
  if sender == receiver || receiver == .any then true
  else if sender == .any then false
  else if safeIssubclass sub sender receiver then true
  else
    let so := get_origin sender
    let ro := get_origin receiver
    if so != some .union && ro == some .union then
      (get_args receiver).attach.any
        (fun a => strict_types_are_compatible sub sender a.1)
    else if !(so.isSome && ro.isSome && so == ro) then false
    else
      let sa := get_args sender
      let ra := get_args receiver
      if sa.length > ra.length then false
      else ((sa.zip ra).attach).all
        (fun p => strict_types_are_compatible sub p.1.1 p.1.2)
termination_by sizeOf sender + sizeOf receiver
decreasing_by
  · have := sizeOf_lt_of_mem_get_args a.2
    omega
  · obtain ⟨⟨x, y⟩, hp⟩ := p
    have h := List.of_mem_zip hp
    have h1 := sizeOf_lt_of_mem_get_args h.1
    have h2 := sizeOf_lt_of_mem_get_args h.2
    simp only
    omega

theorem any_attach {α : Type} (l : List α) (f : α → Bool) :
    (l.attach.any fun a => f a.1) = l.any f := by
  rw [Bool.eq_iff_iff]
  simp [List.any_eq_true]

theorem all_attach_pair {α β : Type} (l : List (α × β)) (f : α → β → Bool) :
    (l.attach.all fun p => f p.1.1 p.1.2) = l.all fun p => f p.1 p.2 := by
  rw [Bool.eq_iff_iff]
  simp [List.all_eq_true]

theorem any_attach_pair {α β : Type} (l : List (α × β)) (f : α → β → Bool) :
    (l.attach.any fun p => f p.1.1 p.1.2) = l.any fun p => f p.1 p.2 := by
  rw [Bool.eq_iff_iff]
  simp [List.any_eq_true]

/-- One-step unfolding of `strict_types_are_compatible`, with the
termination bookkeeping removed. -/
theorem strict_unfold (sub : String → String → Bool) (sender receiver : Ty) :
    strict_types_are_compatible sub sender receiver =
      (if sender == receiver || receiver == .any then true
       else if sender == .any then false
       else if safeIssubclass sub sender receiver then true
       else if get_origin sender != some .union && get_origin receiver == some .union then
         (get_args receiver).any (fun a => strict_types_are_compatible sub sender a)
       else if !((get_origin sender).isSome && (get_origin receiver).isSome &&
                 (get_origin sender == get_origin receiver)) then false
       else if (get_args sender).length > (get_args receiver).length then false
       else (((get_args sender).zip (get_args receiver))).all
         (fun p => strict_types_are_compatible sub p.1 p.2)) := by
  rw [strict_types_are_compatible]
  simp only [any_attach, all_attach_pair]

mutual
/-- A small structural size measure (strings count 1), used to relate the
algorithms to their fuel-indexed executable twins. -/
def Ty.sz : Ty → Nat
  | .any => 1
  | .atomic _ => 1
  | .val _ => 1
  | .union l => 1 + Ty.szList l
  | .lit l => 1 + Ty.szList l
  | .param _ l => 1 + Ty.szList l

def Ty.szList : List Ty → Nat
  | [] => 0
  | a :: as => Ty.sz a + Ty.szList as
end

theorem Ty.sz_pos (t : Ty) : 0 < Ty.sz t := by
  cases t <;> rw [Ty.sz] <;> omega

theorem Ty.sz_le_szList {a : Ty} : ∀ {l : List Ty}, a ∈ l → Ty.sz a ≤ Ty.szList l := by
  intro l h
  induction l with
  | nil => cases h
  | cons b bs ih =>
    rw [Ty.szList]
    rcases List.mem_cons.1 h with h1 | h2
    · subst h1; omega
    · have := ih h2; omega

theorem Ty.sz_lt_of_mem_get_args {t a : Ty} (h : a ∈ get_args t) : Ty.sz a < Ty.sz t := by
  cases t <;> simp [get_args] at h <;>
    · have := Ty.sz_le_szList h
      simp only [Ty.sz]
      omega

theorem any_congr {α : Type} {l : List α} {f g : α → Bool}
    (h : ∀ a ∈ l, f a = g a) : l.any f = l.any g := by
  induction l with
  | nil => rfl
  | cons a l ih =>
    simp only [List.any_cons, h a (by simp)]
    rw [ih (fun b hb => h b (by simp [hb]))]

theorem all_congr {α : Type} {l : List α} {f g : α → Bool}
    (h : ∀ a ∈ l, f a = g a) : l.all f = l.all g := by
  induction l with
  | nil => rfl
  | cons a l ih =>
    simp only [List.all_cons, h a (by simp)]
    rw [ih (fun b hb => h b (by simp [hb]))]

/-- Fuel-indexed executable twin of `strict_types_are_compatible`; it computes
by kernel reduction, which the well-founded original does not. -/
def strictF (sub : String → String → Bool) : Nat → Ty → Ty → Bool
  | 0, _, _ => false
  | Nat.succ n, sender, receiver =>
    if sender == receiver || receiver == .any then true
    else if sender == .any then false
    else if safeIssubclass sub sender receiver then true
    else if get_origin sender != some .union && get_origin receiver == some .union then
      (get_args receiver).any (fun a => strictF sub n sender a)
    else if !((get_origin sender).isSome && (get_origin receiver).isSome &&
              (get_origin sender == get_origin receiver)) then false
    else if (get_args sender).length > (get_args receiver).length then false
    else (((get_args sender).zip (get_args receiver))).all
      (fun p => strictF sub n p.1 p.2)

theorem strictF_eq (sub : String → String → Bool) :
    ∀ (n : Nat) (sender receiver : Ty), Ty.sz sender + Ty.sz receiver ≤ n →
      strictF sub n sender receiver = strict_types_are_compatible sub sender receiver := by
  intro n
  induction n with
  | zero =>
    intro s r h
    have := Ty.sz_pos s
    have := Ty.sz_pos r
    omega
  | succ n ih =>
    intro s r h
    rw [strict_unfold]
    simp only [strictF]
    refine if_congr Iff.rfl rfl (if_congr Iff.rfl rfl (if_congr Iff.rfl rfl
      (if_congr Iff.rfl ?_ (if_congr Iff.rfl rfl (if_congr Iff.rfl rfl ?_)))))
    · refine any_congr (fun a ha => ih s a ?_)
      have := Ty.sz_lt_of_mem_get_args ha
      omega
    · refine all_congr (fun p hp => ?_)
      have hm := List.of_mem_zip (a := p.1) (b := p.2) (by simpa using hp)
      have h1 := Ty.sz_lt_of_mem_get_args hm.1
      have h2 := Ty.sz_lt_of_mem_get_args hm.2
      exact ih p.1 p.2 (by omega)

/-- A concrete fragment of Python's nominal class hierarchy, used as the
subtype oracle in concrete examples: `bool` is a subclass of `int`. -/
def pySub : String → String → Bool :=
  fun a b => a == b || (a == "bool" && b == "int")

example : strict_types_are_compatible pySub (Ty.atomic "int")
    (Ty.union [Ty.atomic "int", Ty.atomic "str"]) = true := by
  rw [← strictF_eq pySub 100 _ _ (by decide)]
  decide

/-- Embeds `_relaxed_types_are_compatible` (type_utils.py lines 81-132), transcribed
branch by branch; note the source's line 118 tests `sender_origin` twice.  The
body of `_relaxed_check_union_compatibility` is mutually recursive with this
function in the source and is inlined at its single call site here; the
definition `relaxed_check_union_compatibility` below restates it and
`relaxed_unfold` reconnects the two. -/
def relaxed_types_are_compatible (sub : String → String → Bool)
    (sender receiver : Ty) : Bool :=
  if sender == .any || receiver == .any || sender == receiver then true
  else if safeIssubclass sub sender receiver then true
  else if safeIssubclass sub receiver sender then true
  else
    let so := get_origin sender
    let ro := get_origin receiver
    if so == some .union || ro == some .union then
      if so == some .union && ro != some .union then
        (get_args sender).attach.any
          (fun a => relaxed_types_are_compatible sub a.1 receiver)
      else if ro == some .union && so != some .union then
        (get_args receiver).attach.any
          (fun a => relaxed_types_are_compatible sub sender a.1)
      else
        (get_args sender).attach.any (fun a =>
          (get_args receiver).attach.any
            (fun b => relaxed_types_are_compatible sub a.1 b.1))
    else if !(so.isSome && so.isSome && so == ro) then false
    else
      let sa := get_args sender
      let ra := get_args receiver
      if so == some .literal && ro == some .literal then
        sa.any (fun v => ra.any (fun w => v == w))
      else if sa.length != ra.length then false
      else ((sa.zip ra).attach).all
        (fun p => relaxed_types_are_compatible sub p.1.1 p.1.2)
termination_by sizeOf sender + sizeOf receiver
decreasing_by
  · have := sizeOf_lt_of_mem_get_args a.2
    omega
  · have := sizeOf_lt_of_mem_get_args a.2
    omega
  · have := sizeOf_lt_of_mem_get_args a.2
    have := sizeOf_lt_of_mem_get_args b.2
    omega
  · obtain ⟨⟨x, y⟩, hp⟩ := p
    have h := List.of_mem_zip hp
    have h1 := sizeOf_lt_of_mem_get_args h.1
    have h2 := sizeOf_lt_of_mem_get_args h.2
    simp only
    omega

/-- Embeds `_relaxed_check_union_compatibility` (type_utils.py lines 135-152): the
partial-compatibility rule for `Union` types, with the origins passed in as
arguments exactly as in the source. -/
def relaxed_check_union_compatibility (sub : String → String → Bool)
    (sender receiver : Ty) (so ro : Option Origin) : Bool :=
  if so == some .union && ro != some .union then
    (get_args sender).any (fun a => relaxed_types_are_compatible sub a receiver)
  else if ro == some .union && so != some .union then
    (get_args receiver).any (fun a => relaxed_types_are_compatible sub sender a)
  else
    (get_args sender).any (fun a =>
      (get_args receiver).any (fun b => relaxed_types_are_compatible sub a b))

theorem any_attach_any {α β : Type} (l : List α) (m : List β) (f : α → β → Bool) :
    (l.attach.any fun a => m.any (f a.1)) = l.any fun a => m.any (f a) := by
  rw [Bool.eq_iff_iff]
  simp [List.any_eq_true]

theorem any_attach_app {α γ : Type} (l : List α) (r : γ) (f : α → γ → Bool) :
    (l.attach.any fun a => f a.1 r) = l.any fun a => f a r := by
  rw [Bool.eq_iff_iff]
  simp [List.any_eq_true]

/-- One-step unfolding of `relaxed_types_are_compatible`, with the inlined
union branch re-expressed as the source's call to
`_relaxed_check_union_compatibility`. -/
theorem relaxed_unfold (sub : String → String → Bool) (sender receiver : Ty) :
    relaxed_types_are_compatible sub sender receiver =
      (if sender == .any || receiver == .any || sender == receiver then true
       else if safeIssubclass sub sender receiver then true
       else if safeIssubclass sub receiver sender then true
       else if get_origin sender == some .union || get_origin receiver == some .union then
         relaxed_check_union_compatibility sub sender receiver
           (get_origin sender) (get_origin receiver)
       else if !((get_origin sender).isSome && (get_origin sender).isSome &&
                 (get_origin sender == get_origin receiver)) then false
       else if get_origin sender == some .literal && get_origin receiver == some .literal then
         (get_args sender).any (fun v => (get_args receiver).any (fun w => v == w))
       else if (get_args sender).length != (get_args receiver).length then false
       else (((get_args sender).zip (get_args receiver))).all
         (fun p => relaxed_types_are_compatible sub p.1 p.2)) := by
  rw [relaxed_types_are_compatible]
  simp only [relaxed_check_union_compatibility, any_attach, any_attach_any, any_attach_app, all_attach_pair]

/-- Fuel-indexed executable twin of `relaxed_types_are_compatible`. -/
def relaxedF (sub : String → String → Bool) : Nat → Ty → Ty → Bool
  | 0, _, _ => false
  | Nat.succ n, sender, receiver =>
    if sender == .any || receiver == .any || sender == receiver then true
    else if safeIssubclass sub sender receiver then true
    else if safeIssubclass sub receiver sender then true
    else if get_origin sender == some .union || get_origin receiver == some .union then
      if get_origin sender == some .union && get_origin receiver != some .union then
        (get_args sender).any (fun a => relaxedF sub n a receiver)
      else if get_origin receiver == some .union && get_origin sender != some .union then
        (get_args receiver).any (fun a => relaxedF sub n sender a)
      else
        (get_args sender).any (fun a =>
          (get_args receiver).any (fun b => relaxedF sub n a b))
    else if !((get_origin sender).isSome && (get_origin sender).isSome &&
              (get_origin sender == get_origin receiver)) then false
    else if get_origin sender == some .literal && get_origin receiver == some .literal then
      (get_args sender).any (fun v => (get_args receiver).any (fun w => v == w))
    else if (get_args sender).length != (get_args receiver).length then false
    else (((get_args sender).zip (get_args receiver))).all
      (fun p => relaxedF sub n p.1 p.2)

theorem relaxedF_eq (sub : String → String → Bool) :
    ∀ (n : Nat) (sender receiver : Ty), Ty.sz sender + Ty.sz receiver ≤ n →
      relaxedF sub n sender receiver = relaxed_types_are_compatible sub sender receiver := by
  intro n
  induction n with
  | zero =>
    intro s r h
    have := Ty.sz_pos s
    have := Ty.sz_pos r
    omega
  | succ n ih =>
    intro s r h
    rw [relaxed_unfold]
    simp only [relaxedF, relaxed_check_union_compatibility]
    refine if_congr Iff.rfl rfl (if_congr Iff.rfl rfl (if_congr Iff.rfl rfl
      (if_congr Iff.rfl
        (if_congr Iff.rfl ?_ (if_congr Iff.rfl ?_ ?_))
        (if_congr Iff.rfl rfl (if_congr Iff.rfl rfl (if_congr Iff.rfl rfl ?_))))))
    · refine any_congr (fun a ha => ih a r ?_)
      have := Ty.sz_lt_of_mem_get_args ha
      omega
    · refine any_congr (fun a ha => ih s a ?_)
      have := Ty.sz_lt_of_mem_get_args ha
      omega
    · refine any_congr (fun a ha => any_congr (fun b hb => ih a b ?_))
      have h1 := Ty.sz_lt_of_mem_get_args ha
      have h2 := Ty.sz_lt_of_mem_get_args hb
      omega
    · refine all_congr (fun p hp => ?_)
      have hm := List.of_mem_zip (a := p.1) (b := p.2) (by simpa using hp)
      have h1 := Ty.sz_lt_of_mem_get_args hm.1
      have h2 := Ty.sz_lt_of_mem_get_args hm.2
      exact ih p.1 p.2 (by omega)

/-- The validation mode selector of `_types_are_compatible`. -/
inductive TypeValidation where
  | strict
  | relaxed
  | disabled
deriving DecidableEq

/-- Embeds `_types_are_compatible` (type_utils.py lines 14-34): the single entry
point, dispatching on the validation mode; any mode other than `strict` and
`relaxed` skips validation and returns `True`. -/
def types_are_compatible (sub : String → String → Bool) (sender receiver : Ty)
    (type_validation : TypeValidation) : Bool :=
  if type_validation == .strict then strict_types_are_compatible sub sender receiver
  else if type_validation == .relaxed then relaxed_types_are_compatible sub sender receiver
  else true

/-- Python's `type(None)`, i.e. the `NoneType` class, which may occur as a
`Union` alternative to express `Optional`. -/
def NoneTy : Ty := Ty.atomic "NoneType"

/-- Models `getattr(type_, "__name__", str(type_))` of line 165: plain classes and
`Any` expose a bare name; constant values have no `__name__` and fall back to
`str`; `Union[...]`, `Literal[...]` and parameterized aliases fall back to a
`typing.`-qualified string form.  The text after the first bracket is
modelled as an ellipsis since `_type_name` discards everything from the
first bracket on. -/
def pyRawName : Ty → String
  | .any => "typing.Any"
  | .atomic n => n
  | .val (.vstr s) => s
  | .val (.vint n) => toString n
  | .union _ => "typing.Union[...]"
  | .lit _ => "typing.Literal[...]"
  | .param o _ => o

/-- Embeds `_type_name` (type_utils.py lines 155-180): the human-readable renderer.
A string constant is wrapped in single quotes; otherwise the base name is the
`__name__`/`str` form with a `typing.` qualifier prefix stripped and any
bracketed suffix dropped, a two-argument `Union` containing `NoneType`
renders as `Optional`, and the (recursively rendered) arguments follow in
brackets, omitting any argument equal to `NoneType`. -/
def isVstr : Ty → Bool
  | .val (.vstr _) => true
  | _ => false

def vstrOf : Ty → String
  | .val (.vstr s) => s
  | _ => ""

/-- Lines 165-170 of `_type_name`: the base name of a descriptor — its
`__name__`/`str` form with a leading `typing.` qualifier stripped and
everything from the first bracket on dropped (`name.split("[")[0]` is the
prefix of the name before its first bracket). -/
def pyBaseName (t : Ty) : String :=
  let name0 := pyRawName t
  let name1 := if "typing.".data.isPrefixOf name0.data then String.mk (name0.data.drop 7)
    else name0
  if name1.data.contains '[' then String.mk (name1.data.takeWhile (fun c => c != '['))
  else name1

def _type_name (t : Ty) : String :=
  if isVstr t then "\x27" ++ vstrOf t ++ "\x27"
  else
    let name2 := pyBaseName t
    let args := get_args t
    let name := if name2 == "Union" && args.contains NoneTy && args.length == 2 then
      "Optional" else name2
    if args.isEmpty then name
    else name ++ "[" ++ String.intercalate ", "
      (((args.filter (fun a => a != NoneTy)).attach).map (fun a => _type_name a.1)) ++ "]"
termination_by sizeOf t
decreasing_by
  have hmem := (List.mem_filter.1 a.2).1
  have := sizeOf_lt_of_mem_get_args hmem
  omega

/-- Fuel-indexed executable twin of `_type_name`. -/
def typeNameF : Nat → Ty → String
  | 0, _ => ""
  | Nat.succ n, t =>
    if isVstr t then "\x27" ++ vstrOf t ++ "\x27"
    else
      let name2 := pyBaseName t
      let args := get_args t
      let name := if name2 == "Union" && args.contains NoneTy && args.length == 2 then
        "Optional" else name2
      if args.isEmpty then name
      else name ++ "[" ++ String.intercalate ", "
        ((args.filter (fun a => a != NoneTy)).map (typeNameF n)) ++ "]"

set_option maxHeartbeats 1600000 in
theorem typeNameF_eq : ∀ (n : Nat) (t : Ty), Ty.sz t ≤ n →
    typeNameF n t = _type_name t := by
  intro n
  induction n with
  | zero =>
    intro t h
    have := Ty.sz_pos t
    omega
  | succ n ih =>
    intro t h
    have hargs : ∀ a ∈ (get_args t).filter (fun a => a != NoneTy),
        typeNameF n a = _type_name a := by
      intro a ha
      have hmem := (List.mem_filter.1 ha).1
      have := Ty.sz_lt_of_mem_get_args hmem
      exact ih a (by omega)
    rw [_type_name]
    simp only [typeNameF, List.attach_map_val]
    refine if_congr Iff.rfl rfl (if_congr Iff.rfl rfl ?_)
    congr 1
    congr 1
    exact congrArg _ (List.map_congr_left hargs)

/-! ### Helper facts about the embedding -/

def Ty.isUnion : Ty → Bool
  | .union _ => true
  | _ => false

theorem Ty.beq_comm (a b : Ty) : (a == b) = (b == a) := by
  rw [Bool.eq_iff_iff]
  simp only [beq_iff_eq]
  exact eq_comm

theorem get_origin_ne_some_union_of_not_union {t : Ty} (h : t.isUnion = false) :
    get_origin t ≠ some Origin.union := by
  cases t <;> simp_all [Ty.isUnion, get_origin]

theorem ne_any_of_origin {t : Ty} {o : Origin} (h : get_origin t = some o) : t ≠ Ty.any := by
  cases t <;> simp_all [get_origin]

theorem safeIssubclass_origin_left {sub : String → String → Bool} {s : Ty} {o : Origin}
    (h : get_origin s = some o) (r : Ty) : safeIssubclass sub s r = false := by
  cases s <;> simp_all [get_origin] <;> cases r <;> rfl

theorem safeIssubclass_origin_right {sub : String → String → Bool} {r : Ty} {o : Origin}
    (h : get_origin r = some o) (s : Ty) : safeIssubclass sub s r = false := by
  cases r <;> simp_all [get_origin] <;> cases s <;> rfl

theorem safeIssubclass_atomic_of_true {sub : String → String → Bool} {s r : Ty}
    (h : safeIssubclass sub s r = true) :
    (∃ a, s = Ty.atomic a) ∧ (∃ b, r = Ty.atomic b) := by
  cases s <;> cases r <;> simp_all [safeIssubclass, pyIssubclass]

theorem zip_self_map {α : Type} (l : List α) : l.zip l = l.map (fun a => (a, a)) := by
  induction l with
  | nil => rfl
  | cons a t ih => simp [List.zip_cons_cons, ih]

/-- Reflexivity of the strict check (rule 1 of the source). -/
theorem strict_refl (sub : String → String → Bool) (t : Ty) :
    strict_types_are_compatible sub t t = true := by
  rw [strict_unfold]
  simp

/-- Reflexivity of the relaxed check (rule 1 of the source). -/
theorem relaxed_refl (sub : String → String → Bool) (t : Ty) :
    relaxed_types_are_compatible sub t t = true := by
  rw [relaxed_unfold]
  simp

/-! ### Claim C4 -/

/-- C4: for every descriptor D, the strict check accepts D against `Any`;
the strict check accepts `Any` as sender exactly when the receiver is `Any`;
and under the relaxed check `Any` on either side always yields true. -/
theorem claim_C4_any_absorption :
    (∀ (sub : String → String → Bool) (D : Ty),
        strict_types_are_compatible sub D Ty.any = true) ∧
    (∀ (sub : String → String → Bool) (D : Ty),
        strict_types_are_compatible sub Ty.any D = (D == Ty.any)) ∧
    (∀ (sub : String → String → Bool) (D : Ty),
        relaxed_types_are_compatible sub Ty.any D = true) ∧
    (∀ (sub : String → String → Bool) (D : Ty),
        relaxed_types_are_compatible sub D Ty.any = true) := by
  refine ⟨?_, ?_, ?_, ?_⟩
  · intro sub D
    rw [strict_unfold]
    simp
  · intro sub D
    rw [strict_unfold]
    by_cases h : D = Ty.any
    · subst h; simp
    · have h1 : (Ty.any == D) = false := by simp [Ne.symm h]
      have h2 : (D == Ty.any) = false := by simp [h]
      simp [h1, h2]
  · intro sub D
    rw [relaxed_unfold]
    simp
  · intro sub D
    rw [relaxed_unfold]
    simp

/-! ### Claim C2 -/

/-- The equal-origin strict check, as an equation of the positional model:
it equals the arity test combined with the positional zip.  Only the two
directions split out in `claim_C2_strict_positional_arity` are facts of the
program itself, because Python's typing equality at line 50 ignores `Union`
argument order while this model's rule-1 equality is positional. -/
theorem strict_equal_origin_positional
    (sub : String → String → Bool) (s r : Ty) (o : Origin)
    (hs : get_origin s = some o) (hr : get_origin r = some o) :
    strict_types_are_compatible sub s r =
      (decide ((get_args s).length ≤ (get_args r).length) &&
        ((get_args s).zip (get_args r)).all
          (fun p => strict_types_are_compatible sub p.1 p.2)) := by
  by_cases hsr : s = r
  · subst hsr
    rw [strict_refl, zip_self_map]
    simp
    intro a _
    exact strict_refl sub a
  · rw [strict_unfold]
    have h1 : (s == r) = false := by simp [hsr]
    have h2 : (r == Ty.any) = false := by simp [ne_any_of_origin hr]
    have h3 : (s == Ty.any) = false := by simp [ne_any_of_origin hs]
    have h4 : safeIssubclass sub s r = false := safeIssubclass_origin_left hs r
    rw [hs, hr]
    have h5 : ((some o : Option Origin) != some Origin.union &&
        (some o : Option Origin) == some Origin.union) = false := by
      cases o <;> rfl
    simp only [h1, h2, h3, h4, h5, Bool.or_self, Bool.or_false, Bool.false_or,
      Option.isSome_some, Bool.and_self, Bool.and_true, Bool.true_and, beq_self_eq_true,
      Bool.not_true, if_false, Bool.false_eq_true]
    by_cases hlen : (get_args s).length > (get_args r).length
    · rw [if_pos hlen]
      have hd : decide ((get_args s).length ≤ (get_args r).length) = false := by
        simp only [decide_eq_false_iff_not]
        omega
      rw [hd, Bool.false_and]
    · rw [if_neg hlen]
      have hd : decide ((get_args s).length ≤ (get_args r).length) = true := by
        simp only [decide_eq_true_eq]
        omega
      rw [hd, Bool.true_and]

/-- C2: under strict compatibility, when sender and receiver are
origin-bearing with equal origins, the argument lists are compared
positionally: a sender with more arguments than the receiver is rejected,
and a sender with at most as many arguments, every positional pair of which
is itself strictly compatible, is accepted — the receiver's extra trailing
arguments being ignored by `zip`; in particular `Mapping[str]` is strictly
compatible with `Mapping[str, int]` but not conversely. -/
theorem claim_C2_strict_positional_arity :
    (∀ (sub : String → String → Bool) (sender receiver : Ty) (o : Origin),
        get_origin sender = some o → get_origin receiver = some o →
        (get_args sender).length > (get_args receiver).length →
        strict_types_are_compatible sub sender receiver = false) ∧
    (∀ (sub : String → String → Bool) (sender receiver : Ty) (o : Origin),
        get_origin sender = some o → get_origin receiver = some o →
        (get_args sender).length ≤ (get_args receiver).length →
        (((get_args sender).zip (get_args receiver)).all
          (fun p => strict_types_are_compatible sub p.1 p.2)) = true →
        strict_types_are_compatible sub sender receiver = true) ∧
    strict_types_are_compatible pySub (Ty.param "Mapping" [Ty.atomic "str"])
      (Ty.param "Mapping" [Ty.atomic "str", Ty.atomic "int"]) = true ∧
    strict_types_are_compatible pySub
      (Ty.param "Mapping" [Ty.atomic "str", Ty.atomic "int"])
      (Ty.param "Mapping" [Ty.atomic "str"]) = false := by
  refine ⟨?_, ?_, ?_, ?_⟩
  · intro sub s r o hs hr hlen
    rw [strict_equal_origin_positional sub s r o hs hr]
    have hd : decide ((get_args s).length ≤ (get_args r).length) = false := by
      simp only [decide_eq_false_iff_not]
      omega
    rw [hd, Bool.false_and]
  · intro sub s r o hs hr hlen hall
    rw [strict_equal_origin_positional sub s r o hs hr]
    have hd : decide ((get_args s).length ≤ (get_args r).length) = true := by
      simp only [decide_eq_true_eq]
      omega
    rw [hd, hall, Bool.and_self]
  · rw [← strictF_eq pySub 100 _ _ (by decide)]
    decide
  · rw [← strictF_eq pySub 100 _ _ (by decide)]
    decide

/-- Witness for C2: both directed statements applied to concrete `list`
descriptors — `list[int, str]` as sender of `list[int]` is rejected by
arity, and `list[int]` as sender of `list[int, str]` is accepted via the
positional pair `(int, int)`. -/
theorem claim_C2_witness :
    strict_types_are_compatible pySub
      (Ty.param "list" [Ty.atomic "int", Ty.atomic "str"])
      (Ty.param "list" [Ty.atomic "int"]) = false ∧
    strict_types_are_compatible pySub (Ty.param "list" [Ty.atomic "int"])
      (Ty.param "list" [Ty.atomic "int", Ty.atomic "str"]) = true :=
  ⟨claim_C2_strict_positional_arity.1 pySub _ _ (Origin.cls "list") rfl rfl (by decide),
   claim_C2_strict_positional_arity.2.1 pySub _ _ (Origin.cls "list") rfl rfl (by decide)
     (by
       have h := strict_refl pySub (Ty.atomic "int")
       simp [get_args, h])⟩

/-! ### Claim C3 -/

/-- C3 (amended): a sender that is neither a `Union` nor `Any`, checked
against a `Union` receiver, is accepted iff it is strictly compatible with at
least one alternative; and a `Union` sender checked against a receiver with
no origin other than `Any` is rejected.  (`Any` is excluded on both sides:
an `Any` sender is rejected before the union rule, and an `Any` receiver is
accepted before the origin rule; see the counterexample.) -/
theorem claim_C3_strict_union_receiver :
    (∀ (sub : String → String → Bool) (s : Ty) (rs : List Ty),
        s.isUnion = false → s ≠ Ty.any →
        strict_types_are_compatible sub s (Ty.union rs) =
          rs.any (fun alt => strict_types_are_compatible sub s alt)) ∧
    (∀ (sub : String → String → Bool) (alts : List Ty) (r : Ty),
        get_origin r = none → r ≠ Ty.any →
        strict_types_are_compatible sub (Ty.union alts) r = false) ∧
    strict_types_are_compatible pySub (Ty.atomic "int")
      (Ty.union [Ty.atomic "int", Ty.atomic "str"]) = true ∧
    strict_types_are_compatible pySub (Ty.union [Ty.atomic "int", Ty.atomic "str"])
      (Ty.atomic "int") = false := by
  refine ⟨?_, ?_, ?_, ?_⟩
  · intro sub s rs hu ha
    rw [strict_unfold]
    have h1 : (s == Ty.union rs) = false := by
      cases s <;> simp_all [Ty.isUnion]
    have h2 : (Ty.union rs == Ty.any) = false := by simp
    have h3 : (s == Ty.any) = false := by simp [ha]
    have h4 : safeIssubclass sub s (Ty.union rs) = false :=
      safeIssubclass_origin_right (r := Ty.union rs) (o := Origin.union) rfl s
    have h5 : get_origin s ≠ some Origin.union := get_origin_ne_some_union_of_not_union hu
    have h6 : (get_origin s != some Origin.union &&
        get_origin (Ty.union rs) == some Origin.union) = true := by
      simp only [Bool.and_eq_true, bne_iff_ne, beq_iff_eq]
      exact ⟨h5, rfl⟩
    simp only [h1, h2, h3, h4, h6, Bool.or_self, Bool.or_false, Bool.false_or,
      Bool.false_eq_true, if_false, if_true, get_args]
  · intro sub alts r hro ha
    rw [strict_unfold]
    have h1 : (Ty.union alts == r) = false := by
      cases r <;> simp_all [get_origin]
    have h2 : (r == Ty.any) = false := by simp [ha]
    have h3 : safeIssubclass sub (Ty.union alts) r = false :=
      safeIssubclass_origin_left (s := Ty.union alts) (o := Origin.union) rfl r
    have h4 : ((some Origin.union : Option Origin) != some Origin.union &&
        (none : Option Origin) == some Origin.union) = false := by decide
    have h0 : (Ty.union alts == Ty.any) = false := by simp
    have g1 : get_origin (Ty.union alts) = some Origin.union := rfl
    simp only [h0, h1, h2, h3, g1, hro, h4, Bool.or_self, Bool.or_false, Bool.false_or,
      Bool.false_eq_true, if_false, Option.isSome_some, Option.isSome_none, Bool.and_false,
      Bool.false_and, Bool.true_and, Bool.and_true, Bool.not_false, if_true]
  · rw [← strictF_eq pySub 100 _ _ (by decide)]
    decide
  · rw [← strictF_eq pySub 100 _ _ (by decide)]
    decide

/-- Witness for C3: `int` against `Union[int, str]` reduces to the
existential over the alternatives. -/
theorem claim_C3_witness :
    strict_types_are_compatible pySub (Ty.atomic "int")
      (Ty.union [Ty.atomic "int", Ty.atomic "str"]) =
      ([Ty.atomic "int", Ty.atomic "str"].any
        (fun alt => strict_types_are_compatible pySub (Ty.atomic "int") alt)) :=
  claim_C3_strict_union_receiver.1 pySub _ _ rfl (by decide)

/-- C3 counterexample to the claim as stated: `Any` is a non-Union sender
and `Union[Any, int]` a Union receiver with a strictly compatible
alternative (`Any` itself), yet the check rejects it; and `Any` is a
receiver with no origin, yet a Union sender against it is accepted. -/
theorem claim_C3_counterexample :
    strict_types_are_compatible pySub Ty.any (Ty.union [Ty.any, Ty.atomic "int"]) = false ∧
    strict_types_are_compatible pySub Ty.any Ty.any = true ∧
    get_origin Ty.any = none ∧
    strict_types_are_compatible pySub (Ty.union [Ty.atomic "int", Ty.atomic "str"])
      Ty.any = true := by
  refine ⟨?_, ?_, rfl, ?_⟩
  · rw [← strictF_eq pySub 100 _ _ (by decide)]
    decide
  · rw [← strictF_eq pySub 100 _ _ (by decide)]
    decide
  · rw [← strictF_eq pySub 100 _ _ (by decide)]
    decide

/-! ### Claim C5 -/

/-- C5: under relaxed compatibility, two distinct `Literal` descriptors are
compatible iff their value sets intersect (some value occurs in both), e.g.
`Literal["a","b"]` vs `Literal["b","c"]` is accepted and `Literal["a"]` vs
`Literal["b"]` rejected. -/
theorem claim_C5_relaxed_literal_intersection :
    (∀ (sub : String → String → Bool) (vs ws : List Ty),
        Ty.lit vs ≠ Ty.lit ws →
        relaxed_types_are_compatible sub (Ty.lit vs) (Ty.lit ws) =
          vs.any (fun v => ws.any (fun w => v == w))) ∧
    relaxed_types_are_compatible pySub
      (Ty.lit [Ty.val (LitVal.vstr "a"), Ty.val (LitVal.vstr "b")])
      (Ty.lit [Ty.val (LitVal.vstr "b"), Ty.val (LitVal.vstr "c")]) = true ∧
    relaxed_types_are_compatible pySub (Ty.lit [Ty.val (LitVal.vstr "a")])
      (Ty.lit [Ty.val (LitVal.vstr "b")]) = false := by
  refine ⟨?_, ?_, ?_⟩
  · intro sub vs ws hne
    rw [relaxed_unfold]
    have h1 : (Ty.lit vs == Ty.any) = false := by simp
    have h2 : (Ty.lit ws == Ty.any) = false := by simp
    have h3 : (Ty.lit vs == Ty.lit ws) = false := by simp [hne]
    have h4 : safeIssubclass sub (Ty.lit vs) (Ty.lit ws) = false :=
      safeIssubclass_origin_left (s := Ty.lit vs) (o := Origin.literal) rfl _
    have h5 : safeIssubclass sub (Ty.lit ws) (Ty.lit vs) = false :=
      safeIssubclass_origin_right (r := Ty.lit vs) (o := Origin.literal) rfl _
    have g1 : get_origin (Ty.lit vs) = some Origin.literal := rfl
    have g2 : get_origin (Ty.lit ws) = some Origin.literal := rfl
    have h6 : ((some Origin.literal : Option Origin) == some Origin.union ||
        (some Origin.literal : Option Origin) == some Origin.union) = false := by decide
    have h7 : (!((some Origin.literal : Option Origin).isSome &&
        (some Origin.literal : Option Origin).isSome &&
        ((some Origin.literal : Option Origin) == some Origin.literal))) = false := by decide
    have h8 : ((some Origin.literal : Option Origin) == some Origin.literal &&
        (some Origin.literal : Option Origin) == some Origin.literal) = true := by decide
    simp only [h1, h2, h3, h4, h5, g1, g2, h6, h7, h8, Bool.or_self, Bool.or_false,
      Bool.false_or, Bool.false_eq_true, if_false, if_true, get_args]
  · rw [← relaxedF_eq pySub 100 _ _ (by decide)]
    decide
  · rw [← relaxedF_eq pySub 100 _ _ (by decide)]
    decide

/-- Witness for C5: the intersection rule applied to `Literal["a"]` vs
`Literal["b"]`. -/
theorem claim_C5_witness :
    relaxed_types_are_compatible pySub (Ty.lit [Ty.val (LitVal.vstr "a")])
      (Ty.lit [Ty.val (LitVal.vstr "b")]) =
      ([Ty.val (LitVal.vstr "a")].any
        (fun v => [Ty.val (LitVal.vstr "b")].any (fun w => v == w))) :=
  claim_C5_relaxed_literal_intersection.1 pySub _ _ (by decide)

/-! ### Claim C7 -/

/-- C7 (amended): a bare class (origin-less unparameterized form) is never
strictly compatible with a parameterized form of the same generic, in either
direction; but the alias form that keeps its origin with an empty argument
list (e.g. bare `typing.List`) is strictly compatible as *sender* with every
parameterization of the same generic (the positional check is vacuous),
while as receiver it still rejects any parameterized sender. -/
theorem claim_C7_unparameterized_generic :
    (∀ (sub : String → String → Bool) (n : String) (args : List Ty),
        strict_types_are_compatible sub (Ty.atomic n) (Ty.param n args) = false) ∧
    (∀ (sub : String → String → Bool) (n : String) (args : List Ty),
        strict_types_are_compatible sub (Ty.param n args) (Ty.atomic n) = false) ∧
    (∀ (sub : String → String → Bool) (n : String) (args : List Ty),
        strict_types_are_compatible sub (Ty.param n []) (Ty.param n args) = true) ∧
    (∀ (sub : String → String → Bool) (n : String) (args : List Ty),
        args ≠ [] →
        strict_types_are_compatible sub (Ty.param n args) (Ty.param n []) = false) := by
  refine ⟨?_, ?_, ?_, ?_⟩
  · intro sub n args
    rw [strict_unfold]
    have h1 : (Ty.atomic n == Ty.param n args) = false := by simp
    have h2 : (Ty.param n args == Ty.any) = false := by simp
    have h3 : (Ty.atomic n == Ty.any) = false := by simp
    have h4 : safeIssubclass sub (Ty.atomic n) (Ty.param n args) = false :=
      safeIssubclass_origin_right (r := Ty.param n args) (o := Origin.cls n) rfl _
    have g1 : get_origin (Ty.atomic n) = none := rfl
    have g2 : get_origin (Ty.param n args) = some (Origin.cls n) := rfl
    have h5 : ((none : Option Origin) != some Origin.union &&
        (some (Origin.cls n) : Option Origin) == some Origin.union) = false := by simp
    have h6 : (!((none : Option Origin).isSome &&
        (some (Origin.cls n) : Option Origin).isSome &&
        ((none : Option Origin) == some (Origin.cls n)))) = true := by simp
    simp only [h1, h2, h3, h4, g1, g2, h5, h6, Bool.or_self, Bool.or_false, Bool.false_or,
      Bool.false_eq_true, if_false, if_true]
  · intro sub n args
    rw [strict_unfold]
    have h1 : (Ty.param n args == Ty.atomic n) = false := by simp
    have h2 : (Ty.atomic n == Ty.any) = false := by simp
    have h3 : (Ty.param n args == Ty.any) = false := by simp
    have h4 : safeIssubclass sub (Ty.param n args) (Ty.atomic n) = false :=
      safeIssubclass_origin_left (s := Ty.param n args) (o := Origin.cls n) rfl _
    have g1 : get_origin (Ty.param n args) = some (Origin.cls n) := rfl
    have g2 : get_origin (Ty.atomic n) = none := rfl
    have h5 : ((some (Origin.cls n) : Option Origin) != some Origin.union &&
        (none : Option Origin) == some Origin.union) = false := by simp
    have h6 : (!((some (Origin.cls n) : Option Origin).isSome &&
        (none : Option Origin).isSome &&
        ((some (Origin.cls n) : Option Origin) == none))) = true := by simp
    simp only [h1, h2, h3, h4, g1, g2, h5, h6, Bool.or_self, Bool.or_false, Bool.false_or,
      Bool.false_eq_true, if_false, if_true]
  · intro sub n args
    rw [strict_unfold]
    by_cases heq : (Ty.param n [] == Ty.param n args) = true
    · simp only [heq, Bool.true_or, if_true]
    · have h1 : (Ty.param n [] == Ty.param n args) = false := by
        simp only [Bool.not_eq_true] at heq
        exact heq
      have h2 : (Ty.param n args == Ty.any) = false := by simp
      have h3 : (Ty.param n [] == Ty.any) = false := by simp
      have h4 : safeIssubclass sub (Ty.param n []) (Ty.param n args) = false :=
        safeIssubclass_origin_left (s := Ty.param n []) (o := Origin.cls n) rfl _
      have g1 : get_origin (Ty.param n []) = some (Origin.cls n) := rfl
      have g2 : get_origin (Ty.param n args) = some (Origin.cls n) := rfl
      have h5 : ((some (Origin.cls n) : Option Origin) != some Origin.union &&
          (some (Origin.cls n) : Option Origin) == some Origin.union) = false := by simp
      have h6 : (!((some (Origin.cls n) : Option Origin).isSome &&
          (some (Origin.cls n) : Option Origin).isSome &&
          ((some (Origin.cls n) : Option Origin) == some (Origin.cls n)))) = false := by
        simp
      have h7 : ¬((get_args (Ty.param n [])).length > (get_args (Ty.param n args)).length) := by
        simp [get_args]
      simp only [h1, h2, h3, h4, g1, g2, h5, h6, Bool.or_self, Bool.or_false, Bool.false_or,
        Bool.false_eq_true, if_false, if_neg h7, get_args, List.zip_nil_left, List.all_nil]
      simp
  · intro sub n args hne
    rw [strict_unfold]
    have h1 : (Ty.param n args == Ty.param n []) = false := by
      simp [hne]
    have h2 : (Ty.param n [] == Ty.any) = false := by simp
    have h3 : (Ty.param n args == Ty.any) = false := by simp
    have h4 : safeIssubclass sub (Ty.param n args) (Ty.param n []) = false :=
      safeIssubclass_origin_left (s := Ty.param n args) (o := Origin.cls n) rfl _
    have g1 : get_origin (Ty.param n args) = some (Origin.cls n) := rfl
    have g2 : get_origin (Ty.param n []) = some (Origin.cls n) := rfl
    have h5 : ((some (Origin.cls n) : Option Origin) != some Origin.union &&
        (some (Origin.cls n) : Option Origin) == some Origin.union) = false := by simp
    have h6 : (!((some (Origin.cls n) : Option Origin).isSome &&
        (some (Origin.cls n) : Option Origin).isSome &&
        ((some (Origin.cls n) : Option Origin) == some (Origin.cls n)))) = false := by
      simp
    have h7 : (get_args (Ty.param n args)).length > (get_args (Ty.param n [])).length := by
      simp only [get_args, List.length_nil]
      exact List.length_pos.2 hne
    simp only [h1, h2, h3, h4, g1, g2, h5, h6, Bool.or_self, Bool.or_false, Bool.false_or,
      Bool.false_eq_true, if_false, if_pos h7]

/-- Witness for C7: `list[Any]` as sender is rejected against the bare alias
form of the same generic. -/
theorem claim_C7_witness :
    strict_types_are_compatible pySub (Ty.param "list" [Ty.any])
      (Ty.param "list" []) = false :=
  claim_C7_unparameterized_generic.2.2.2 pySub "list" [Ty.any] (by decide)

/-- C7 counterexample to the claim as stated: the alias form of a bare
generic (origin kept, no arguments) *is* strictly compatible, as sender,
with a parameterized form of the same generic, although the two descriptors
are not identical. -/
theorem claim_C7_counterexample :
    strict_types_are_compatible pySub (Ty.param "list" [])
      (Ty.param "list" [Ty.any]) = true ∧
    Ty.param "list" [] ≠ Ty.param "list" [Ty.any] := by
  constructor
  · rw [← strictF_eq pySub 100 _ _ (by decide)]
    decide
  · decide

/-! ### Claim C8 -/

/-- C8: the nominal subtype check raises exactly when one side is not a
plain class, the `try/except TypeError` wrapper turns that failure into
"not a subtype" (false) instead of propagating it, and the compatibility
entry point is a total boolean function for every descriptor pair and
mode. -/
theorem claim_C8_fail_closed :
    (∀ (sub : String → String → Bool) (s r : Ty),
        ((∀ n, s ≠ Ty.atomic n) ∨ (∀ n, r ≠ Ty.atomic n)) →
        pyIssubclass sub s r = Except.error "TypeError" ∧
        safeIssubclass sub s r = false) ∧
    (∀ (sub : String → String → Bool) (s r : Ty) (m : TypeValidation),
        types_are_compatible sub s r m = true ∨
        types_are_compatible sub s r m = false) := by
  constructor
  · intro sub s r h
    cases s <;> cases r <;> try exact ⟨rfl, rfl⟩
    rcases h with h | h
    · exact absurd rfl (h _)
    · exact absurd rfl (h _)
  · intro sub s r m
    cases h : types_are_compatible sub s r m
    · right; rfl
    · left; rfl

/-- Witness for C8: `issubclass` on the parameterized sender `list[int]`
raises, and the wrapper reports "not a subtype". -/
theorem claim_C8_witness :
    pyIssubclass pySub (Ty.param "list" [Ty.atomic "int"]) (Ty.atomic "int") =
      Except.error "TypeError" ∧
    safeIssubclass pySub (Ty.param "list" [Ty.atomic "int"]) (Ty.atomic "int") = false :=
  claim_C8_fail_closed.1 pySub _ _ (Or.inl (fun _ h => Ty.noConfusion h))

/-! ### Claim C9 -/

/-- C9 (amended): a *string* constant value of a `Literal` renders as itself
wrapped in single quotes; a non-string constant (e.g. the integer `3`) is
rendered by its plain string form with no quotes. -/
theorem claim_C9_literal_rendering :
    (∀ s : String, _type_name (Ty.val (LitVal.vstr s)) = "\x27" ++ s ++ "\x27") ∧
    _type_name (Ty.val (LitVal.vint 3)) = "3" ∧
    _type_name (Ty.lit [Ty.val (LitVal.vint 3)]) = "Literal[3]" := by
  refine ⟨?_, ?_, ?_⟩
  · intro s
    rw [_type_name]
    rfl
  · rw [← typeNameF_eq 100 _ (by decide)]
    decide
  · rw [← typeNameF_eq 100 _ (by decide)]
    decide

/-- C9 counterexample to the claim as stated: the integer constant `3`
appearing in `Literal[3]` renders as `3`, not wrapped in single quotes. -/
theorem claim_C9_counterexample :
    _type_name (Ty.val (LitVal.vint 3)) = "3" ∧
    ("3" : String) ≠ "\x27" ++ "3" ++ "\x27" := by
  constructor
  · rw [← typeNameF_eq 100 _ (by decide)]
    decide
  · decide

/-! ### Claim C6 -/

theorem relaxed_any_left (sub : String → String → Bool) (r : Ty) :
    relaxed_types_are_compatible sub Ty.any r = true := by
  rw [relaxed_unfold]; simp

theorem relaxed_any_right (sub : String → String → Bool) (s : Ty) :
    relaxed_types_are_compatible sub s Ty.any = true := by
  rw [relaxed_unfold]; simp

theorem relaxed_union_sender (sub : String → String → Bool) (alts : List Ty) (r : Ty)
    (hu : r.isUnion = false) (ha : r ≠ Ty.any) :
    relaxed_types_are_compatible sub (Ty.union alts) r =
      alts.any (fun a => relaxed_types_are_compatible sub a r) := by
  rw [relaxed_unfold]
  have h1 : (Ty.union alts == Ty.any) = false := by simp
  have h2 : (r == Ty.any) = false := by simp [ha]
  have h3 : (Ty.union alts == r) = false := by
    cases r <;> simp_all [Ty.isUnion]
  have h4 : safeIssubclass sub (Ty.union alts) r = false :=
    safeIssubclass_origin_left (s := Ty.union alts) (o := Origin.union) rfl r
  have h5 : safeIssubclass sub r (Ty.union alts) = false :=
    safeIssubclass_origin_right (r := Ty.union alts) (o := Origin.union) rfl r
  have g1 : get_origin (Ty.union alts) = some Origin.union := rfl
  have h6 : ((some Origin.union : Option Origin) == some Origin.union ||
      get_origin r == some Origin.union) = true := by simp
  have h7 : ((some Origin.union : Option Origin) == some Origin.union &&
      get_origin r != some Origin.union) = true := by
    simp [bne_iff_ne, get_origin_ne_some_union_of_not_union hu]
  simp only [h1, h2, h3, h4, h5, g1, h6, h7, Bool.or_self, Bool.or_false, Bool.false_or,
    Bool.false_eq_true, if_false, if_true, relaxed_check_union_compatibility, get_args]

theorem relaxed_union_receiver (sub : String → String → Bool) (s : Ty) (alts : List Ty)
    (hu : s.isUnion = false) (ha : s ≠ Ty.any) :
    relaxed_types_are_compatible sub s (Ty.union alts) =
      alts.any (fun a => relaxed_types_are_compatible sub s a) := by
  rw [relaxed_unfold]
  have h1 : (s == Ty.any) = false := by simp [ha]
  have h2 : (Ty.union alts == Ty.any) = false := by simp
  have h3 : (s == Ty.union alts) = false := by
    cases s <;> simp_all [Ty.isUnion]
  have h4 : safeIssubclass sub s (Ty.union alts) = false :=
    safeIssubclass_origin_right (r := Ty.union alts) (o := Origin.union) rfl s
  have h5 : safeIssubclass sub (Ty.union alts) s = false :=
    safeIssubclass_origin_left (s := Ty.union alts) (o := Origin.union) rfl s
  have g1 : get_origin (Ty.union alts) = some Origin.union := rfl
  have h6 : (get_origin s == some Origin.union ||
      (some Origin.union : Option Origin) == some Origin.union) = true := by simp
  have hso : get_origin s ≠ some Origin.union := get_origin_ne_some_union_of_not_union hu
  have h7 : (get_origin s == some Origin.union &&
      (some Origin.union : Option Origin) != some Origin.union) = false := by
    simp
  have h8 : ((some Origin.union : Option Origin) == some Origin.union &&
      get_origin s != some Origin.union) = true := by
    simp [bne_iff_ne, hso]
  simp only [h1, h2, h3, h4, h5, g1, h6, h7, h8, Bool.or_self, Bool.or_false, Bool.false_or,
    Bool.false_eq_true, if_false, if_true, relaxed_check_union_compatibility, get_args]

theorem relaxed_union_both (sub : String → String → Bool) (as bs : List Ty)
    (hne : Ty.union as ≠ Ty.union bs) :
    relaxed_types_are_compatible sub (Ty.union as) (Ty.union bs) =
      as.any (fun a => bs.any (fun b => relaxed_types_are_compatible sub a b)) := by
  rw [relaxed_unfold]
  have h1 : (Ty.union as == Ty.any) = false := by simp
  have h2 : (Ty.union bs == Ty.any) = false := by simp
  have h3 : (Ty.union as == Ty.union bs) = false := by simp [hne]
  have h4 : safeIssubclass sub (Ty.union as) (Ty.union bs) = false :=
    safeIssubclass_origin_left (s := Ty.union as) (o := Origin.union) rfl _
  have h5 : safeIssubclass sub (Ty.union bs) (Ty.union as) = false :=
    safeIssubclass_origin_right (r := Ty.union as) (o := Origin.union) rfl _
  have g1 : get_origin (Ty.union as) = some Origin.union := rfl
  have g2 : get_origin (Ty.union bs) = some Origin.union := rfl
  have h6 : ((some Origin.union : Option Origin) == some Origin.union ||
      (some Origin.union : Option Origin) == some Origin.union) = true := by simp
  have h7 : ((some Origin.union : Option Origin) == some Origin.union &&
      (some Origin.union : Option Origin) != some Origin.union) = false := by simp
  simp only [h1, h2, h3, h4, h5, g1, g2, h6, h7, Bool.or_self, Bool.or_false, Bool.false_or,
    Bool.false_eq_true, if_false, if_true, relaxed_check_union_compatibility, get_args]

/-- C6: under relaxed compatibility, once no earlier rule fires, a `Union`
sender against a non-Union receiver is accepted iff some alternative is
relaxed-compatible with the receiver; a non-Union sender against a `Union`
receiver iff it is relaxed-compatible with some alternative; and two
distinct `Union`s iff some cross pair of alternatives is relaxed-compatible. -/
theorem claim_C6_relaxed_union_partial :
    (∀ (sub : String → String → Bool) (alts : List Ty) (r : Ty),
        r.isUnion = false → r ≠ Ty.any →
        relaxed_types_are_compatible sub (Ty.union alts) r =
          alts.any (fun a => relaxed_types_are_compatible sub a r)) ∧
    (∀ (sub : String → String → Bool) (s : Ty) (alts : List Ty),
        s.isUnion = false → s ≠ Ty.any →
        relaxed_types_are_compatible sub s (Ty.union alts) =
          alts.any (fun a => relaxed_types_are_compatible sub s a)) ∧
    (∀ (sub : String → String → Bool) (as bs : List Ty),
        Ty.union as ≠ Ty.union bs →
        relaxed_types_are_compatible sub (Ty.union as) (Ty.union bs) =
          as.any (fun a => bs.any (fun b => relaxed_types_are_compatible sub a b))) :=
  ⟨relaxed_union_sender, relaxed_union_receiver, relaxed_union_both⟩

/-- Witness for C6: `Union[int, str]` against the non-Union receiver `str`
reduces to the existential over the sender alternatives. -/
theorem claim_C6_witness :
    relaxed_types_are_compatible pySub (Ty.union [Ty.atomic "int", Ty.atomic "str"])
      (Ty.atomic "str") =
      ([Ty.atomic "int", Ty.atomic "str"].any
        (fun a => relaxed_types_are_compatible pySub a (Ty.atomic "str"))) :=
  claim_C6_relaxed_union_partial.1 pySub _ _ rfl (by decide)

/-! ### Claim C10 -/

theorem relaxed_true_symm :
    ∀ (n : Nat) (sub : String → String → Bool) (s r : Ty),
      Ty.sz s + Ty.sz r ≤ n →
      relaxed_types_are_compatible sub s r = true →
      relaxed_types_are_compatible sub r s = true := by
  intro n
  induction n with
  | zero =>
    intro sub s r h _
    have := Ty.sz_pos s
    have := Ty.sz_pos r
    omega
  | succ n ih =>
    intro sub s r h hrel
    by_cases e1 : s = Ty.any
    · subst e1; exact relaxed_any_right sub r
    by_cases e2 : r = Ty.any
    · subst e2; exact relaxed_any_left sub s
    by_cases e3 : s = r
    · subst e3; exact hrel
    rw [relaxed_unfold] at hrel
    rw [relaxed_unfold]
    have g1 : (s == Ty.any || r == Ty.any || s == r) = false := by
      simp [e1, e2, e3]
    have e3x : ¬r = s := fun hh => e3 hh.symm
    have g1x : (r == Ty.any || s == Ty.any || r == s) = false := by
      simp [e1, e2, e3x]
    simp only [g1, Bool.false_eq_true, if_false] at hrel
    simp only [g1x, Bool.false_eq_true, if_false]
    by_cases b1 : safeIssubclass sub s r = true
    · cases hb2 : safeIssubclass sub r s
      · simp only [hb2, Bool.false_eq_true, if_false, b1, if_true]
      · simp only [if_true]
    have b1f : safeIssubclass sub s r = false := by
      simpa using b1
    simp only [b1f, Bool.false_eq_true, if_false] at hrel
    by_cases b2 : safeIssubclass sub r s = true
    · simp only [b2, if_true]
    have b2f : safeIssubclass sub r s = false := by
      simpa using b2
    simp only [b2f, Bool.false_eq_true, if_false] at hrel
    simp only [b1f, b2f, Bool.false_eq_true, if_false]
    by_cases u : (get_origin s == some Origin.union || get_origin r == some Origin.union) = true
    · have u' : (get_origin r == some Origin.union || get_origin s == some Origin.union) = true := by
        rw [Bool.or_comm]; exact u
      simp only [u, if_true] at hrel
      simp only [u', if_true]
      rw [relaxed_check_union_compatibility] at hrel
      rw [relaxed_check_union_compatibility]
      by_cases su : (get_origin s == some Origin.union) = true
      · by_cases ru : (get_origin r == some Origin.union) = true
        · have c1 : (get_origin s == some Origin.union &&
              get_origin r != some Origin.union) = false := by
            simp only [bne]; rw [ru]; simp
          have c2 : (get_origin r == some Origin.union &&
              get_origin s != some Origin.union) = false := by
            simp only [bne]; rw [su]; simp
          simp only [c1, c2, Bool.false_eq_true, if_false] at hrel
          simp only [c1, c2, Bool.false_eq_true, if_false]
          rw [List.any_eq_true] at hrel ⊢
          obtain ⟨a, ha, hinner⟩ := hrel
          rw [List.any_eq_true] at hinner
          obtain ⟨b, hb, hab⟩ := hinner
          refine ⟨b, hb, ?_⟩
          rw [List.any_eq_true]
          refine ⟨a, ha, ?_⟩
          have s1 := Ty.sz_lt_of_mem_get_args ha
          have s2 := Ty.sz_lt_of_mem_get_args hb
          exact ih sub a b (by omega) hab
        · have ruf : (get_origin r == some Origin.union) = false := by simpa using ru
          have c1 : (get_origin s == some Origin.union &&
              get_origin r != some Origin.union) = true := by
            simp only [bne]; rw [su, ruf]; rfl
          have c2 : (get_origin r == some Origin.union &&
              get_origin s != some Origin.union) = false := by
            rw [ruf]; simp
          simp only [c1, if_true] at hrel
          simp only [c2, Bool.false_eq_true, if_false, c1, if_true]
          rw [List.any_eq_true] at hrel ⊢
          obtain ⟨a, ha, hra⟩ := hrel
          refine ⟨a, ha, ?_⟩
          have s1 := Ty.sz_lt_of_mem_get_args ha
          exact ih sub a r (by omega) hra
      · have suf : (get_origin s == some Origin.union) = false := by simpa using su
        have ru : (get_origin r == some Origin.union) = true := by
          rcases Bool.or_eq_true_iff.1 u with hh | hh
          · exact absurd hh su
          · exact hh
        have c1 : (get_origin s == some Origin.union &&
            get_origin r != some Origin.union) = false := by
          rw [suf]; simp
        have c2 : (get_origin r == some Origin.union &&
            get_origin s != some Origin.union) = true := by
          simp only [bne]; rw [ru, suf]; rfl
        simp only [c1, Bool.false_eq_true, if_false, c2, if_true] at hrel
        simp only [c2, if_true]
        rw [List.any_eq_true] at hrel ⊢
        obtain ⟨a, ha, hsa⟩ := hrel
        refine ⟨a, ha, ?_⟩
        have s1 := Ty.sz_lt_of_mem_get_args ha
        exact ih sub s a (by omega) hsa
    · have uf : (get_origin s == some Origin.union ||
          get_origin r == some Origin.union) = false := by simpa using u
      have uf' : (get_origin r == some Origin.union ||
          get_origin s == some Origin.union) = false := by
        rw [Bool.or_comm]; exact uf
      simp only [uf, Bool.false_eq_true, if_false] at hrel
      simp only [uf', Bool.false_eq_true, if_false]
      by_cases og : (!((get_origin s).isSome && (get_origin s).isSome &&
          (get_origin s == get_origin r))) = true
      · rw [if_pos og] at hrel
        exact absurd hrel (by simp)
      · have ogf : (!((get_origin s).isSome && (get_origin s).isSome &&
            (get_origin s == get_origin r))) = false := Bool.eq_false_iff.2 og
        have hog : get_origin s ≠ none ∧ get_origin s = get_origin r := by
          simpa using og
        have hisome : (get_origin r).isSome = true := by
          rw [← hog.2]
          exact Option.isSome_iff_ne_none.2 hog.1
        have ogf' : (!((get_origin r).isSome && (get_origin r).isSome &&
            (get_origin r == get_origin s))) = false := by
          rw [hisome]
          have hbeq : (get_origin r == get_origin s) = true := by
            simp [hog.2.symm]
          rw [hbeq]
          rfl
        simp only [ogf, Bool.false_eq_true, if_false] at hrel
        simp only [ogf', Bool.false_eq_true, if_false]
        by_cases l : (get_origin s == some Origin.literal &&
            get_origin r == some Origin.literal) = true
        · have l' : (get_origin r == some Origin.literal &&
              get_origin s == some Origin.literal) = true := by
            rw [Bool.and_comm]; exact l
          simp only [l, if_true] at hrel
          simp only [l', if_true]
          rw [List.any_eq_true] at hrel ⊢
          obtain ⟨v, hv, hinner⟩ := hrel
          rw [List.any_eq_true] at hinner
          obtain ⟨w, hw, hvw⟩ := hinner
          refine ⟨w, hw, ?_⟩
          rw [List.any_eq_true]
          exact ⟨v, hv, by rw [Ty.beq_comm]; exact hvw⟩
        · have lf : (get_origin s == some Origin.literal &&
              get_origin r == some Origin.literal) = false := by simpa using l
          have lf' : (get_origin r == some Origin.literal &&
              get_origin s == some Origin.literal) = false := by
            rw [Bool.and_comm]; exact lf
          simp only [lf, Bool.false_eq_true, if_false] at hrel
          simp only [lf', Bool.false_eq_true, if_false]
          by_cases len : ((get_args s).length != (get_args r).length) = true
          · rw [if_pos len] at hrel
            exact absurd hrel (by simp)
          · have lenf : ((get_args s).length != (get_args r).length) = false := by
              simpa using len
            have heq : (get_args s).length = (get_args r).length := by
              simpa [bne_iff_ne] using lenf
            have lenf' : ((get_args r).length != (get_args s).length) = false := by
              simp [bne_iff_ne, heq.symm]
            simp only [lenf, Bool.false_eq_true, if_false] at hrel
            simp only [lenf', Bool.false_eq_true, if_false]
            rw [List.all_eq_true] at hrel ⊢
            intro p hp
            have hp' : p.swap ∈ (get_args s).zip (get_args r) := by
              rw [← List.zip_swap]
              exact List.mem_map_of_mem Prod.swap hp
            have hm := List.of_mem_zip (a := p.1) (b := p.2) (by simpa using hp)
            have s1 := Ty.sz_lt_of_mem_get_args hm.1
            have s2 := Ty.sz_lt_of_mem_get_args hm.2
            have hres := hrel p.swap hp'
            exact ih sub p.2 p.1 (by omega) hres

/-- C10: the relaxed compatibility check is symmetric in sender and
receiver. -/
theorem claim_C10_relaxed_symmetric (sub : String → String → Bool) (s r : Ty) :
    relaxed_types_are_compatible sub s r = relaxed_types_are_compatible sub r s := by
  rw [Bool.eq_iff_iff]
  constructor
  · exact relaxed_true_symm (Ty.sz s + Ty.sz r) sub s r le_rfl
  · exact relaxed_true_symm (Ty.sz r + Ty.sz s) sub r s (by omega)

/-! ### Claim C1 -/

/-- Union-permutation equivalence: `UPerm a b` holds when `b` is obtained
from `a` by permuting the alternative list of `Union` descriptors occurring
anywhere inside `a`.  `Literal` arguments are constant values, so in a
well-formed descriptor no `Union` occurs below a `Literal` and `Literal`s
are related only to themselves. -/
inductive UPerm : Ty → Ty → Prop where
  | any : UPerm Ty.any Ty.any
  | atomic (n : String) : UPerm (Ty.atomic n) (Ty.atomic n)
  | val (v : LitVal) : UPerm (Ty.val v) (Ty.val v)
  | lit (vs : List Ty) : UPerm (Ty.lit vs) (Ty.lit vs)
  | union {alts mid alts' : List Ty} :
      List.Forall₂ UPerm alts mid → mid.Perm alts' →
      UPerm (Ty.union alts) (Ty.union alts')
  | param (o : String) {args args' : List Ty} :
      List.Forall₂ UPerm args args' → UPerm (Ty.param o args) (Ty.param o args')

theorem uperm_refl : ∀ (t : Ty), UPerm t t := by
  have key : ∀ (n : Nat) (t : Ty), Ty.sz t ≤ n → UPerm t t := by
    intro n
    induction n with
    | zero =>
      intro t h
      have := Ty.sz_pos t
      omega
    | succ n ih =>
      intro t h
      cases t with
      | any => exact .any
      | atomic m => exact .atomic m
      | val v => exact .val v
      | lit vs => exact .lit vs
      | union alts =>
        refine .union ?_ (List.Perm.refl alts)
        rw [List.forall₂_same]
        intro a ha
        have h1 : Ty.sz a ≤ Ty.szList alts := Ty.sz_le_szList ha
        have h2 : Ty.sz (Ty.union alts) = 1 + Ty.szList alts := by rw [Ty.sz]
        exact ih a (by omega)
      | param o args =>
        refine .param o ?_
        rw [List.forall₂_same]
        intro a ha
        have h1 : Ty.sz a ≤ Ty.szList args := Ty.sz_le_szList ha
        have h2 : Ty.sz (Ty.param o args) = 1 + Ty.szList args := by rw [Ty.sz]
        exact ih a (by omega)
  exact fun t => key (Ty.sz t) t le_rfl

theorem forall2_symm_callback {R : Ty → Ty → Prop} :
    ∀ {l m : List Ty}, List.Forall₂ R l m →
      (∀ a ∈ l, ∀ b, R a b → R b a) → List.Forall₂ R m l := by
  intro l m F
  induction F with
  | nil => intro _; exact .nil
  | cons hab F' ih =>
    intro hc
    exact .cons (hc _ (by simp) _ hab)
      (ih (fun a ha b hr => hc a (by simp [ha]) b hr))

theorem forall2_perm_left {α : Type} {R : α → α → Prop} {l l' : List α} :
    l.Perm l' → ∀ {xs : List α}, List.Forall₂ R l xs →
      ∃ xs', List.Forall₂ R l' xs' ∧ xs.Perm xs' := by
  intro P
  induction P with
  | nil =>
    intro xs F
    cases F
    exact ⟨[], .nil, .nil⟩
  | cons x P' ih =>
    intro xs F
    cases F with
    | cons hxy F' =>
      obtain ⟨ys', F2, P2⟩ := ih F'
      exact ⟨_ :: ys', .cons hxy F2, P2.cons _⟩
  | swap x y l0 =>
    intro xs F
    cases F with
    | cons h1 F1 =>
      cases F1 with
      | cons h2 F2 =>
        exact ⟨_, .cons h2 (.cons h1 F2), List.Perm.swap _ _ _⟩
  | trans P1 P2 ih1 ih2 =>
    intro xs F
    obtain ⟨m1, F1, Q1⟩ := ih1 F
    obtain ⟨m2, F2, Q2⟩ := ih2 F1
    exact ⟨m2, F2, Q1.trans Q2⟩

theorem uperm_symm : ∀ {a b : Ty}, UPerm a b → UPerm b a := by
  have key : ∀ (n : Nat) (a b : Ty), Ty.sz a ≤ n → UPerm a b → UPerm b a := by
    intro n
    induction n with
    | zero =>
      intro a b h _
      have := Ty.sz_pos a
      omega
    | succ n ih =>
      intro a b h hab
      cases hab with
      | any => exact .any
      | atomic m => exact .atomic m
      | val v => exact .val v
      | lit vs => exact .lit vs
      | @union alts mid alts' F P =>
        have hsz : ∀ x ∈ alts, Ty.sz x ≤ n := by
          intro x hx
          have h1 : Ty.sz x ≤ Ty.szList alts := Ty.sz_le_szList hx
          have h2 : Ty.sz (Ty.union alts) = 1 + Ty.szList alts := by rw [Ty.sz]
          omega
        have F' : List.Forall₂ UPerm mid alts :=
          forall2_symm_callback F (fun x hx b hb => ih x b (hsz x hx) hb)
        obtain ⟨xs, F'', Px⟩ := forall2_perm_left P F'
        exact .union F'' Px.symm
      | @param o args args' F =>
        have hsz : ∀ x ∈ args, Ty.sz x ≤ n := by
          intro x hx
          have h1 : Ty.sz x ≤ Ty.szList args := Ty.sz_le_szList hx
          have h2 : Ty.sz (Ty.param o args) = 1 + Ty.szList args := by rw [Ty.sz]
          omega
        exact .param o
          (forall2_symm_callback F (fun x hx b hb => ih x b (hsz x hx) hb))
  exact fun {a b} hab => key (Ty.sz a) a b le_rfl hab

theorem uperm_origin {a b : Ty} (h : UPerm a b) : get_origin a = get_origin b := by
  cases h <;> rfl

theorem uperm_any_iff {a b : Ty} (h : UPerm a b) : a = Ty.any ↔ b = Ty.any := by
  cases h <;> simp

theorem forall2_mem_left {R : Ty → Ty → Prop} :
    ∀ {l m : List Ty}, List.Forall₂ R l m → ∀ {a}, a ∈ l → ∃ b ∈ m, R a b := by
  intro l m F
  induction F with
  | nil =>
    intro a ha
    cases ha
  | cons hab F' ih =>
    intro a ha
    rcases List.mem_cons.1 ha with h | h
    · subst h
      exact ⟨_, by simp, hab⟩
    · obtain ⟨b, hb, hr⟩ := ih h
      exact ⟨b, by simp [hb], hr⟩

theorem forall2_nil_right {R : Ty → Ty → Prop} {m : List Ty}
    (F : List.Forall₂ R [] m) : m = [] := by
  cases F
  rfl

theorem zip_all_of_forall2 {f : Ty → Ty → Bool} :
    ∀ {bs cs : List Ty}, List.Forall₂ (fun b c => f b c = true) bs cs →
      ((bs.zip cs).all fun p => f p.1 p.2) = true := by
  intro bs cs H
  induction H with
  | nil => rfl
  | cons hfc H' ih =>
    simp only [List.zip_cons_cons, List.all_cons, Bool.and_eq_true]
    exact ⟨hfc, ih⟩

theorem forall2_compose {R : Ty → Ty → Prop} {f : Ty → Ty → Bool} :
    ∀ {as bs cs : List Ty}, List.Forall₂ R as bs → List.Forall₂ R as cs →
      (∀ a ∈ as, ∀ b c, R a b → R a c → f b c = true) →
      List.Forall₂ (fun b c => f b c = true) bs cs := by
  intro as bs cs F1
  induction F1 generalizing cs with
  | nil =>
    intro F2 _
    cases F2
    exact .nil
  | cons hab F1' ih =>
    intro F2 hcb
    cases F2 with
    | cons hac F2' =>
      exact .cons (hcb _ (by simp) _ _ hab hac)
        (ih F2' (fun a ha b c h1 h2 => hcb a (by simp [ha]) b c h1 h2))

/-- The equal-class-origin branch of the relaxed check: two distinct
parameterized descriptors with the same origin and equally long argument
lists are compared positionally. -/
theorem relaxed_param (sub : String → String → Bool) (o : String) (bs cs : List Ty)
    (hne : Ty.param o bs ≠ Ty.param o cs) (hlen : bs.length = cs.length) :
    relaxed_types_are_compatible sub (Ty.param o bs) (Ty.param o cs) =
      ((bs.zip cs).all fun p => relaxed_types_are_compatible sub p.1 p.2) := by
  rw [relaxed_unfold]
  have h1 : (Ty.param o bs == Ty.any) = false := by simp
  have h2 : (Ty.param o cs == Ty.any) = false := by simp
  have h3 : (Ty.param o bs == Ty.param o cs) = false := by simp [hne]
  have h4 : safeIssubclass sub (Ty.param o bs) (Ty.param o cs) = false :=
    safeIssubclass_origin_left (s := Ty.param o bs) (o := Origin.cls o) rfl _
  have h5 : safeIssubclass sub (Ty.param o cs) (Ty.param o bs) = false :=
    safeIssubclass_origin_right (r := Ty.param o bs) (o := Origin.cls o) rfl _
  have g1 : get_origin (Ty.param o bs) = some (Origin.cls o) := rfl
  have g2 : get_origin (Ty.param o cs) = some (Origin.cls o) := rfl
  have h6 : ((some (Origin.cls o) : Option Origin) == some Origin.union ||
      (some (Origin.cls o) : Option Origin) == some Origin.union) = false := by simp
  have h7 : (!((some (Origin.cls o) : Option Origin).isSome &&
      (some (Origin.cls o) : Option Origin).isSome &&
      ((some (Origin.cls o) : Option Origin) == some (Origin.cls o)))) = false := by simp
  have h8 : ((some (Origin.cls o) : Option Origin) == some Origin.literal &&
      (some (Origin.cls o) : Option Origin) == some Origin.literal) = false := by simp
  have h9 : ((get_args (Ty.param o bs)).length != (get_args (Ty.param o cs)).length) =
      false := by
    simp [get_args, bne_iff_ne, hlen]
  simp only [h1, h2, h3, h4, h5, g1, g2, h6, h7, h8, h9, Bool.or_self, Bool.or_false,
    Bool.false_or, Bool.false_eq_true, if_false, get_args]
  simp [bne_iff_ne, hlen]

theorem relaxed_uperm_branches_aux (sub : String → String → Bool) :
    ∀ (n : Nat) (x y z : Ty), Ty.sz x ≤ n → UPerm x y → UPerm x z →
      relaxed_types_are_compatible sub y z = true := by
  intro n
  induction n with
  | zero =>
    intro x y z h _ _
    have := Ty.sz_pos x
    omega
  | succ n ih =>
    intro x y z h hxy hxz
    cases hxy with
    | any =>
      cases hxz
      exact relaxed_refl sub _
    | atomic m =>
      cases hxz
      exact relaxed_refl sub _
    | val v =>
      cases hxz
      exact relaxed_refl sub _
    | lit vs =>
      cases hxz
      exact relaxed_refl sub _
    | @union as mid1 bs F1 P1 =>
      cases hxz with
      | @union as2 mid2 cs F2 P2 =>
        by_cases hbc : Ty.union bs = Ty.union cs
        · rw [hbc]
          exact relaxed_refl sub _
        · rw [relaxed_union_both sub bs cs hbc]
          cases as with
          | nil =>
            have hb : mid1 = [] := forall2_nil_right F1
            have hc : mid2 = [] := forall2_nil_right F2
            subst hb
            subst hc
            have hbs : bs = [] := P1.symm.eq_nil
            have hcs : cs = [] := P2.symm.eq_nil
            subst hbs
            subst hcs
            exact absurd rfl hbc
          | cons a as0 =>
            obtain ⟨b, hbmid, hab⟩ := forall2_mem_left F1 (List.mem_cons_self a as0)
            obtain ⟨c, hcmid, hac⟩ := forall2_mem_left F2 (List.mem_cons_self a as0)
            have hb : b ∈ bs := P1.mem_iff.1 hbmid
            have hc : c ∈ cs := P2.mem_iff.1 hcmid
            have hsz : Ty.sz a ≤ n := by
              have h1 : Ty.sz a ≤ Ty.szList (a :: as0) := Ty.sz_le_szList (by simp)
              have h2 : Ty.sz (Ty.union (a :: as0)) = 1 + Ty.szList (a :: as0) := by
                rw [Ty.sz]
              omega
            rw [List.any_eq_true]
            refine ⟨b, hb, ?_⟩
            rw [List.any_eq_true]
            exact ⟨c, hc, ih a b c hsz hab hac⟩
    | @param o as bs F1 =>
      cases hxz with
      | @param o2 as2 cs F2 =>
        by_cases hbc : Ty.param o bs = Ty.param o cs
        · rw [hbc]
          exact relaxed_refl sub _
        · have hlen : bs.length = cs.length := F1.length_eq.symm.trans F2.length_eq
          rw [relaxed_param sub o bs cs hbc hlen]
          refine zip_all_of_forall2 (forall2_compose F1 F2 ?_)
          intro a ha b c h1 h2
          have hsz : Ty.sz a ≤ n := by
            have h1a : Ty.sz a ≤ Ty.szList as := Ty.sz_le_szList ha
            have h2a : Ty.sz (Ty.param o as) = 1 + Ty.szList as := by rw [Ty.sz]
            omega
          exact ih a b c hsz h1 h2

/-- If `y` and `z` are both union-permutation variants of a common
descriptor, the relaxed check accepts the pair. -/
theorem uperm_branches (sub : String → String → Bool) {x y z : Ty}
    (hxy : UPerm x y) (hxz : UPerm x z) :
    relaxed_types_are_compatible sub y z = true :=
  relaxed_uperm_branches_aux sub (Ty.sz x) x y z le_rfl hxy hxz

theorem zip_all_transfer {f g : Ty → Ty → Bool} :
    ∀ {as as' bs bs' : List Ty},
      List.Forall₂ UPerm as as' → List.Forall₂ UPerm bs bs' →
      (∀ a ∈ as, ∀ b ∈ bs, ∀ a' b', UPerm a a' → UPerm b b' →
        f a b = true → g a' b' = true) →
      ((as.zip bs).all fun p => f p.1 p.2) = true →
      ((as'.zip bs').all fun p => g p.1 p.2) = true := by
  intro as as' bs bs' F1
  induction F1 generalizing bs bs' with
  | nil =>
    intro F2 _ _
    cases F2 <;> rfl
  | cons haa F1' ih =>
    intro F2 hcb hall
    cases F2 with
    | nil => rfl
    | cons hbb F2' =>
      simp only [List.zip_cons_cons, List.all_cons, Bool.and_eq_true] at hall ⊢
      exact ⟨hcb _ (by simp) _ (by simp) _ _ haa hbb hall.1,
        ih F2' (fun a ha b hb a' b' h1 h2 hf =>
          hcb a (by simp [ha]) b (by simp [hb]) a' b' h1 h2 hf) hall.2⟩

theorem origin_union_inv {t : Ty} (h : get_origin t = some Origin.union) :
    ∃ alts, t = Ty.union alts := by
  cases t
  case union alts => exact ⟨alts, rfl⟩
  all_goals simp [get_origin] at h

theorem origin_literal_inv {t : Ty} (h : get_origin t = some Origin.literal) :
    ∃ vs, t = Ty.lit vs := by
  cases t
  case lit vs => exact ⟨vs, rfl⟩
  all_goals simp [get_origin] at h

theorem origin_cls_inv {t : Ty} {o : String} (h : get_origin t = some (Origin.cls o)) :
    ∃ args, t = Ty.param o args := by
  cases t
  case param o2 args =>
    simp [get_origin] at h
    exact ⟨args, by rw [h]⟩
  all_goals simp [get_origin] at h

set_option maxHeartbeats 1600000 in
theorem relaxed_uperm_true (sub : String → String → Bool) :
    ∀ (n : Nat) (s r s' r' : Ty), Ty.sz s + Ty.sz r ≤ n →
      UPerm s s' → UPerm r r' →
      relaxed_types_are_compatible sub s r = true →
      relaxed_types_are_compatible sub s' r' = true := by
  intro n
  induction n with
  | zero =>
    intro s r s' r' h _ _ _
    have := Ty.sz_pos s
    have := Ty.sz_pos r
    omega
  | succ n ih =>
    intro s r s' r' h hss hrr hrel
    by_cases e1 : s = Ty.any
    · subst e1
      have hs' : s' = Ty.any := (uperm_any_iff hss).1 rfl
      subst hs'
      exact relaxed_any_left sub r'
    by_cases e2 : r = Ty.any
    · subst e2
      have hr' : r' = Ty.any := (uperm_any_iff hrr).1 rfl
      subst hr'
      exact relaxed_any_right sub s'
    by_cases e3 : s = r
    · subst e3
      exact uperm_branches sub hss hrr
    by_cases e3' : s' = r'
    · rw [e3']
      exact relaxed_refl sub r'
    have e1' : s' ≠ Ty.any := fun hh => e1 ((uperm_any_iff hss).2 hh)
    have e2' : r' ≠ Ty.any := fun hh => e2 ((uperm_any_iff hrr).2 hh)
    rw [relaxed_unfold] at hrel
    rw [relaxed_unfold]
    have g1 : (s == Ty.any || r == Ty.any || s == r) = false := by
      simp [e1, e2, e3]
    have g1' : (s' == Ty.any || r' == Ty.any || s' == r') = false := by
      simp [e1', e2', e3']
    simp only [g1, Bool.false_eq_true, if_false] at hrel
    simp only [g1', Bool.false_eq_true, if_false]
    by_cases b1' : safeIssubclass sub s' r' = true
    · simp only [b1', if_true]
    by_cases b2' : safeIssubclass sub r' s' = true
    · simp only [Bool.eq_false_iff.2 b1', Bool.false_eq_true, if_false, b2', if_true]
    have b1'f := Bool.eq_false_iff.2 b1'
    have b2'f := Bool.eq_false_iff.2 b2'
    simp only [b1'f, b2'f, Bool.false_eq_true, if_false]
    have b1f : safeIssubclass sub s r = false := by
      cases hb : safeIssubclass sub s r
      · rfl
      · obtain ⟨⟨a0, hsa⟩, ⟨b0, hrb⟩⟩ := safeIssubclass_atomic_of_true hb
        subst hsa
        subst hrb
        have hs' : s' = Ty.atomic a0 := by cases hss with | atomic => rfl
        have hr' : r' = Ty.atomic b0 := by cases hrr with | atomic => rfl
        rw [hs', hr'] at b1'f
        rw [hb] at b1'f
        exact b1'f
    have b2f : safeIssubclass sub r s = false := by
      cases hb : safeIssubclass sub r s
      · rfl
      · obtain ⟨⟨a0, hra⟩, ⟨b0, hsb⟩⟩ := safeIssubclass_atomic_of_true hb
        subst hra
        subst hsb
        have hs' : s' = Ty.atomic b0 := by cases hss with | atomic => rfl
        have hr' : r' = Ty.atomic a0 := by cases hrr with | atomic => rfl
        rw [hs', hr'] at b2'f
        rw [hb] at b2'f
        exact b2'f
    simp only [b1f, b2f, Bool.false_eq_true, if_false] at hrel
    have horig_s : get_origin s' = get_origin s := (uperm_origin hss).symm
    have horig_r : get_origin r' = get_origin r := (uperm_origin hrr).symm
    rw [horig_s, horig_r]
    by_cases u : (get_origin s == some Origin.union ||
        get_origin r == some Origin.union) = true
    · simp only [u, if_true] at hrel ⊢
      rw [relaxed_check_union_compatibility] at hrel
      rw [relaxed_check_union_compatibility]
      by_cases su : (get_origin s == some Origin.union) = true
      · have hsu : get_origin s = some Origin.union := by simpa using su
        obtain ⟨as, rfl⟩ : ∃ as, s = Ty.union as := origin_union_inv hsu
        cases hss with
        | @union _ mid1 bs F1 P1 =>
        have hszs : ∀ x ∈ as, Ty.sz x < Ty.sz (Ty.union as) := by
          intro x hx
          exact Ty.sz_lt_of_mem_get_args (t := Ty.union as) hx
        by_cases ru : (get_origin r == some Origin.union) = true
        · have hru : get_origin r = some Origin.union := by simpa using ru
          obtain ⟨rs, rfl⟩ : ∃ rs, r = Ty.union rs := origin_union_inv hru
          cases hrr with
          | @union _ mid2 cs F2 P2 =>
          have c1 : ((some Origin.union : Option Origin) == some Origin.union &&
              (some Origin.union : Option Origin) != some Origin.union) = false := by
            decide
          simp only [get_origin] at hrel ⊢
          simp only [c1, Bool.false_eq_true, if_false] at hrel ⊢
          simp only [get_args] at hrel ⊢
          rw [List.any_eq_true] at hrel ⊢
          obtain ⟨a, ha, hinner⟩ := hrel
          rw [List.any_eq_true] at hinner
          obtain ⟨c, hc, hac⟩ := hinner
          obtain ⟨b, hbmid, hab⟩ := forall2_mem_left F1 ha
          obtain ⟨d, hdmid, hcd⟩ := forall2_mem_left F2 hc
          have hb : b ∈ bs := P1.mem_iff.1 hbmid
          have hd : d ∈ cs := P2.mem_iff.1 hdmid
          refine ⟨b, hb, ?_⟩
          rw [List.any_eq_true]
          refine ⟨d, hd, ?_⟩
          have s1 := hszs a ha
          have s2 := Ty.sz_lt_of_mem_get_args (t := Ty.union rs) hc
          exact ih a c b d (by omega) hab hcd hac
        · have hruf : get_origin r ≠ some Origin.union := by simpa using ru
          have c1 : (get_origin (Ty.union as) == some Origin.union &&
              get_origin r != some Origin.union) = true := by
            simp only [Bool.and_eq_true, beq_iff_eq, bne_iff_ne]
            exact ⟨rfl, hruf⟩
          simp only [c1, if_true] at hrel ⊢
          simp only [get_args] at hrel ⊢
          rw [List.any_eq_true] at hrel ⊢
          obtain ⟨a, ha, har⟩ := hrel
          obtain ⟨b, hbmid, hab⟩ := forall2_mem_left F1 ha
          have hb : b ∈ bs := P1.mem_iff.1 hbmid
          refine ⟨b, hb, ?_⟩
          have s1 := hszs a ha
          have s2 := Ty.sz_pos r
          exact ih a r b r' (by omega) hab hrr har
      · have hsuf : get_origin s ≠ some Origin.union := by simpa using su
        have ru : (get_origin r == some Origin.union) = true := by
          rcases Bool.or_eq_true_iff.1 u with hh | hh
          · exact absurd hh su
          · exact hh
        have hru : get_origin r = some Origin.union := by simpa using ru
        obtain ⟨rs, rfl⟩ : ∃ rs, r = Ty.union rs := origin_union_inv hru
        cases hrr with
        | @union _ mid2 cs F2 P2 =>
        have c1 : (get_origin s == some Origin.union &&
            get_origin (Ty.union rs) != some Origin.union) = false := by
          have hx : (get_origin (Ty.union rs) != some Origin.union) = false := by
            simp [get_origin]
          rw [hx, Bool.and_false]
        have c2 : (get_origin (Ty.union rs) == some Origin.union &&
            get_origin s != some Origin.union) = true := by
          simp only [Bool.and_eq_true, beq_iff_eq, bne_iff_ne]
          exact ⟨rfl, hsuf⟩
        simp only [c1, c2, Bool.false_eq_true, if_false, if_true] at hrel
        simp only [c1, c2, Bool.false_eq_true, if_false, if_true]
        simp only [get_args] at hrel ⊢
        rw [List.any_eq_true] at hrel ⊢
        obtain ⟨a, ha, hsa⟩ := hrel
        obtain ⟨b, hbmid, hab⟩ := forall2_mem_left F2 ha
        have hb : b ∈ cs := P2.mem_iff.1 hbmid
        refine ⟨b, hb, ?_⟩
        have s1 := Ty.sz_lt_of_mem_get_args (t := Ty.union rs) ha
        have s2 := Ty.sz_pos s
        exact ih s a s' b (by omega) hss hab hsa
    · have uf := Bool.eq_false_iff.2 u
      simp only [uf, Bool.false_eq_true, if_false] at hrel ⊢
      by_cases og : (!((get_origin s).isSome && (get_origin s).isSome &&
          (get_origin s == get_origin r))) = true
      · rw [if_pos og] at hrel
        exact absurd hrel (by simp)
      · have ogf := Bool.eq_false_iff.2 og
        simp only [ogf, Bool.false_eq_true, if_false] at hrel ⊢
        have hog : get_origin s ≠ none ∧ get_origin s = get_origin r := by
          simpa using og
        by_cases l : (get_origin s == some Origin.literal &&
            get_origin r == some Origin.literal) = true
        · have hlits : get_origin s = some Origin.literal ∧
              get_origin r = some Origin.literal := by
            simpa using l
          obtain ⟨vs, rfl⟩ : ∃ vs, s = Ty.lit vs := origin_literal_inv hlits.1
          obtain ⟨ws, rfl⟩ : ∃ ws, r = Ty.lit ws := origin_literal_inv hlits.2
          cases hss with
          | lit =>
          cases hrr with
          | lit =>
          simp only [l, if_true] at hrel ⊢
          exact hrel
        · have lf := Bool.eq_false_iff.2 l
          simp only [lf, Bool.false_eq_true, if_false] at hrel ⊢
          obtain ⟨o, hso⟩ : ∃ o, get_origin s = some (Origin.cls o) := by
            rcases hog with ⟨hnn, heq⟩
            cases hso : get_origin s with
            | none => exact absurd hso hnn
            | some o0 =>
              cases o0 with
              | union =>
                have : (get_origin s == some Origin.union ||
                    get_origin r == some Origin.union) = true := by
                  simp [hso]
                exact absurd this (by simpa using uf)
              | literal =>
                have : (get_origin s == some Origin.literal &&
                    get_origin r == some Origin.literal) = true := by
                  simp [hso, ← heq]
                exact absurd this (by simpa using lf)
              | cls o => exact ⟨o, rfl⟩
          obtain ⟨as, rfl⟩ : ∃ args, s = Ty.param o args := origin_cls_inv hso
          have hro : get_origin r = some (Origin.cls o) := by
            rw [← hog.2]
            exact hso
          obtain ⟨bs, rfl⟩ : ∃ args, r = Ty.param o args := origin_cls_inv hro
          cases hss with
          | @param _ _ as' F1 =>
          cases hrr with
          | @param _ _ bs' F2 =>
          by_cases len : ((get_args (Ty.param o as)).length !=
              (get_args (Ty.param o bs)).length) = true
          · rw [if_pos len] at hrel
            exact absurd hrel (by simp)
          · have lenf := Bool.eq_false_iff.2 len
            have heqlen : as.length = bs.length := by
              simpa [get_args, bne_iff_ne] using lenf
            have heqlen' : as'.length = bs'.length := by
              rw [← F1.length_eq, ← F2.length_eq]
              exact heqlen
            have lenf' : ((get_args (Ty.param o as')).length !=
                (get_args (Ty.param o bs')).length) = false := by
              simp [get_args, bne_iff_ne, heqlen']
            simp only [lenf, Bool.false_eq_true, if_false] at hrel
            simp only [lenf', Bool.false_eq_true, if_false]
            simp only [get_args] at hrel ⊢
            refine zip_all_transfer F1 F2 ?_ hrel
            intro a ha b hb a' b' h1 h2 hf
            have s1 := Ty.sz_lt_of_mem_get_args (t := Ty.param o as) ha
            have s2 := Ty.sz_lt_of_mem_get_args (t := Ty.param o bs) hb
            exact ih a b a' b' (by omega) h1 h2 hf

/-- C1 (amended): permuting the alternatives inside any `Union` occurring in
the sender or the receiver never changes the result of the *relaxed*
compatibility check.  (For the *strict* check this fails: when both sides
are `Union`s the alternatives are compared positionally, so permutation can
flip the verdict — see the counterexample.) -/
theorem claim_C1_union_permutation (sub : String → String → Bool)
    (s r s' r' : Ty) (hss : UPerm s s') (hrr : UPerm r r') :
    relaxed_types_are_compatible sub s r = relaxed_types_are_compatible sub s' r' := by
  rw [Bool.eq_iff_iff]
  constructor
  · exact relaxed_uperm_true sub (Ty.sz s + Ty.sz r) s r s' r' le_rfl hss hrr
  · exact relaxed_uperm_true sub (Ty.sz s' + Ty.sz r') s' r' s r le_rfl
      (uperm_symm hss) (uperm_symm hrr)

/-- Witness for C1: swapping the alternatives of the sender union
`Union[int, str]` leaves the relaxed verdict against `bool` unchanged. -/
theorem claim_C1_witness :
    relaxed_types_are_compatible pySub (Ty.union [Ty.atomic "int", Ty.atomic "str"])
      (Ty.atomic "bool") =
    relaxed_types_are_compatible pySub (Ty.union [Ty.atomic "str", Ty.atomic "int"])
      (Ty.atomic "bool") :=
  claim_C1_union_permutation pySub _ _ _ _
    (UPerm.union
      (List.Forall₂.cons (uperm_refl (Ty.atomic "int"))
        (List.Forall₂.cons (uperm_refl (Ty.atomic "str")) List.Forall₂.nil))
      (List.Perm.swap (Ty.atomic "str") (Ty.atomic "int") []))
    (uperm_refl (Ty.atomic "bool"))

/-- C1 counterexample to the claim as stated: under the *strict* check,
permuting the alternatives of the receiver `Union` flips the verdict for the
union sender `Union[bool, str]` (both sides being unions, the strict check
zips the alternatives positionally; the oracle knows `bool` as a subclass of
`int`). -/
theorem claim_C1_counterexample :
    List.Perm [Ty.atomic "int", Ty.atomic "str"] [Ty.atomic "str", Ty.atomic "int"] ∧
    strict_types_are_compatible pySub (Ty.union [Ty.atomic "bool", Ty.atomic "str"])
      (Ty.union [Ty.atomic "int", Ty.atomic "str"]) = true ∧
    strict_types_are_compatible pySub (Ty.union [Ty.atomic "bool", Ty.atomic "str"])
      (Ty.union [Ty.atomic "str", Ty.atomic "int"]) = false := by
  refine ⟨List.Perm.swap (Ty.atomic "str") (Ty.atomic "int") [], ?_, ?_⟩
  · rw [← strictF_eq pySub 100 _ _ (by decide)]
    decide
  · rw [← strictF_eq pySub 100 _ _ (by decide)]
    decide
